import Mathlib

/-!
Shallow embedding of `dinvlad/invoiceninja-mercury-sync` (`main.go`).

The program periodically reconciles Mercury bank transactions into
InvoiceNinja.  The embedding models:
  * the dedup ledger `SyncState.ProcessedTxIDs` as an association list
    from transaction ID to the time the transaction was first recorded
    (`Ledger`), with the pruning, membership and record operations used
    by `syncTransactions`;
  * the InvoiceNinja payload construction of
    `createInvoiceNinjaTransaction` (sign, magnitude, date, route);
  * one reconciliation cycle `syncTransactions` with the Mercury fetch
    and the InvoiceNinja post modelled as oracles (a fetch oracle
    returning `Except Unit (List MercuryTransaction)` per account and a
    post oracle returning whether the HTTP post succeeded);
  * the `main` loop step (`mainStep`): run a cycle on the in-memory
    state, and persist to disk only when the cycle succeeded and
    `saveState` succeeds; the in-memory `state` object survives across
    cycles, `loadState` runs only at process start (`restartProcess`);
  * the scheduler timing of `main`: `nextSync := time.Now().Add(interval)`
    computed after the cycle's work, followed by
    `time.Sleep(time.Until(nextSync))`.

Timestamps are modelled as `Int` Unix seconds; `time.Time.Before` is
strict `<`; `AddDate(0, 0, -7)` subtracts `7 * 86400` seconds.
-/

/-- Mercury account, from `MercuryAccount` in main.go. -/
structure MercuryAccount where
  id : String
  name : String
  deriving DecidableEq

/-- Mercury transaction, from `MercuryTransaction` in main.go.
`amount` is a signed decimal (modelled as a rational), `postedAt` a
Unix-seconds timestamp. -/
structure MercuryTransaction where
  id : String
  amount : ℚ
  bankDescription : String
  postedAt : Int
  deriving DecidableEq

/-- InvoiceNinja bank-transaction payload, from `InvoiceNinjaBankTX` in
main.go.  `date` is the calendar day (the result of
`Format("2006-01-02")`, modelled as days since the epoch). -/
structure InvoiceNinjaBankTX where
  amount : ℚ
  date : Int
  description : String
  bankIntegrationID : String
  baseType : String
  deriving DecidableEq

/-- The configuration fields that matter to the sync engine, from
`Config` in main.go. -/
structure Config where
  syncIntervalHours : Int
  syncStartDaysAgo : Int
  deriving DecidableEq

/-- The defaults installed by `loadConfig` (main.go lines 66-72):
`SyncIntervalHours: 1`, `SyncStartDaysAgo: 7`. -/
def loadConfigDefaults : Config := ⟨1, 7⟩

/-- The lookback window (days) used by `fetchMercuryTransactions`:
`time.Now().AddDate(0, 0, -config.SyncStartDaysAgo)`. -/
def lookbackDays (c : Config) : Int := c.syncStartDaysAgo

/-- The retention window hard-coded in `syncTransactions`:
`cutoffTime := time.Now().AddDate(0, 0, -7)`. -/
def retentionDays : Int := 7

def secondsPerDay : Int := 86400

def secondsPerHour : Int := 3600

/-- The retention window in seconds. -/
def retentionSeconds : Int := retentionDays * secondsPerDay

/-- The dedup ledger `SyncState.ProcessedTxIDs : map[string]time.Time`,
modelled as an association list from transaction ID to first-seen
timestamp. -/
abbrev Ledger := List (String × Int)

/-- Membership test `_, ok := state.ProcessedTxIDs[tx.ID]`. -/
def ledgerHas (l : Ledger) (x : String) : Bool :=
  l.any (fun e => e.1 == x)

/-- Map assignment `state.ProcessedTxIDs[tx.ID] = time.Now()`:
insert-or-overwrite of the entry for `x`. -/
def recordTx (l : Ledger) (x : String) (t : Int) : Ledger :=
  (x, t) :: l.filter (fun e => e.1 != x)

/-- The pruning loop at the top of `syncTransactions` (main.go lines
290-296): delete every entry whose timestamp is strictly before
`now - 7 days`. -/
def pruneLedger (l : Ledger) (now : Int) : Ledger :=
  l.filter (fun e => !decide (e.2 < now - retentionSeconds))

/-- `tx.PostedAt.Format("2006-01-02")`: normalize a timestamp to its
calendar day, discarding the time of day. -/
def formatDateOnly (t : Int) : Int := t.fdiv secondsPerDay

/-- The payload built by `createInvoiceNinjaTransaction` (main.go lines
264-287): `baseType` is `"DEBIT"` unless the amount is strictly
positive, the amount sent is `math.Abs(tx.Amount)`, the date is the
posted timestamp formatted as a date, and the resolved bank integration
ID is attached. -/
def createInvoiceNinjaTransaction (bankIntegrationID : String)
    (tx : MercuryTransaction) : InvoiceNinjaBankTX :=
  ⟨|tx.amount|, formatDateOnly tx.postedAt, tx.bankDescription,
    bankIntegrationID, if 0 < tx.amount then "CREDIT" else "DEBIT"⟩

/-- Outcome of one `syncTransactions` call: the resulting in-memory
ledger, the trace of post requests issued to InvoiceNinja during the
cycle (in order, including a final failed request if any), and whether
the cycle returned without error. -/
structure SyncOut where
  ledger : Ledger
  posts : List MercuryTransaction
  ok : Bool
  deriving DecidableEq

/-- The IDs of a list of transactions. -/
def txIds (ps : List MercuryTransaction) : List String :=
  ps.map (fun t => t.id)

/-- The inner per-transaction loop of `syncTransactions` (main.go lines
313-326): skip a transaction whose ID is in the ledger; otherwise post
it; on post success record its ID at the current time and continue; on
post failure return the error immediately (the ledger mutations made so
far are kept — the Go code mutates `state` in place). -/
def processTxs (post : MercuryTransaction → Bool) (now : Int) :
    Ledger → List MercuryTransaction → SyncOut
  | l, [] => ⟨l, [], true⟩
  | l, tx :: rest =>
    if ledgerHas l tx.id then
      processTxs post now l rest
    else if post tx then
      let r := processTxs post now (recordTx l tx.id now) rest
      ⟨r.ledger, tx :: r.posts, r.ok⟩
    else
      ⟨l, [tx], false⟩

/-- The per-account loop of `syncTransactions` (main.go lines 299-330):
a failed fetch is logged and the account is skipped (`continue`); a
post failure propagates and aborts the remaining accounts. -/
def syncAccounts (fetch : MercuryAccount → Except Unit (List MercuryTransaction))
    (post : MercuryTransaction → Bool) (now : Int) :
    Ledger → List MercuryAccount → SyncOut
  | l, [] => ⟨l, [], true⟩
  | l, a :: rest =>
    match fetch a with
    | Except.error _ => syncAccounts fetch post now l rest
    | Except.ok txs =>
      let r := processTxs post now l txs
      if r.ok then
        let r2 := syncAccounts fetch post now r.ledger rest
        ⟨r2.ledger, r.posts ++ r2.posts, r2.ok⟩
      else
        r

/-- One full `syncTransactions` cycle (main.go lines 289-334): prune
the ledger, then process every account. -/
def syncTransactions (accounts : List MercuryAccount)
    (fetch : MercuryAccount → Except Unit (List MercuryTransaction))
    (post : MercuryTransaction → Bool) (now : Int) (l : Ledger) : SyncOut :=
  syncAccounts fetch post now (pruneLedger l now) accounts

/-- The process state visible to the `main` loop: the in-memory
`SyncState` (held for the whole process lifetime) and the on-disk
snapshot written by `saveState`. -/
structure MainState where
  mem : Ledger
  disk : Ledger
  deriving DecidableEq

/-- The per-cycle environment: the account list, the fetch and post
oracles, the cycle's clock reading, and whether `saveState` would
succeed this cycle. -/
structure CycleEnv where
  accounts : List MercuryAccount
  fetch : MercuryAccount → Except Unit (List MercuryTransaction)
  post : MercuryTransaction → Bool
  now : Int
  persistOk : Bool

/-- One iteration of the `main` loop (main.go lines 389-395): run
`syncTransactions` on the in-memory state; if it succeeded, call
`saveState`; a sync error or a save error is logged and the loop
continues.  The in-memory state keeps all mutations in every case. -/
def mainStep (e : CycleEnv) (s : MainState) : MainState :=
  let r := syncTransactions e.accounts e.fetch e.post e.now s.mem
  if r.ok && e.persistOk then ⟨r.ledger, r.ledger⟩ else ⟨r.ledger, s.disk⟩

/-- A process restart: `loadState` (main.go lines 376-379) reads the
last durable snapshot back into memory. -/
def restartProcess (s : MainState) : MainState := ⟨s.disk, s.disk⟩

/-- The `main` loop run over a finite list of cycle environments: every
cycle is executed regardless of earlier cycles' failures. -/
def runCycles (envs : List CycleEnv) (s : MainState) : MainState :=
  envs.foldl (fun st e => mainStep e st) s

/-- `nextSync := time.Now().Add(interval)` (main.go line 396): the next
sync time is the interval added to the clock read after the cycle's
work finished. -/
def nextSyncTime (cycleEnd : Int) (syncIntervalHours : Int) : Int :=
  cycleEnd + syncIntervalHours * secondsPerHour

/-- `time.Sleep(time.Until(nextSync))` (main.go line 398): sleeping a
non-positive duration returns immediately, so the next cycle starts at
`max cycleEnd nextSync`. -/
def nextCycleStart (cycleEnd : Int) (syncIntervalHours : Int) : Int :=
  max cycleEnd (nextSyncTime cycleEnd syncIntervalHours)

/-- The start times of successive cycles, given the start time of the
first cycle and the duration of each cycle's work (sync plus persist). -/
def cycleStart (t0 : Int) (i : Int) (dur : Nat → Int) : Nat → Int
  | 0 => t0
  | n + 1 => nextCycleStart (cycleStart t0 i dur n + dur n) i

/-! ### Basic ledger lemmas -/

theorem ledgerHas_iff (l : Ledger) (x : String) :
    ledgerHas l x = true ↔ ∃ t, (x, t) ∈ l := by
  simp only [ledgerHas, List.any_eq_true, beq_iff_eq]
  constructor
  · rintro ⟨⟨a, b⟩, hmem, rfl⟩
    exact ⟨b, hmem⟩
  · rintro ⟨t, ht⟩
    exact ⟨(x, t), ht, rfl⟩

theorem pair_mem_ledgerHas {l : Ledger} {x : String} {t : Int}
    (h : (x, t) ∈ l) : ledgerHas l x = true :=
  (ledgerHas_iff l x).mpr ⟨t, h⟩

theorem ledgerHas_filter_false {l : Ledger} {x : String}
    (p : String × Int → Bool) (h : ledgerHas l x = false) :
    ledgerHas (l.filter p) x = false := by
  rw [← Bool.not_eq_true] at h ⊢
  intro hc
  apply h
  rw [ledgerHas_iff] at hc ⊢
  obtain ⟨t, ht⟩ := hc
  exact ⟨t, (List.mem_filter.mp ht).1⟩

theorem ledgerHas_pruneLedger_false {l : Ledger} {x : String} (now : Int)
    (h : ledgerHas l x = false) : ledgerHas (pruneLedger l now) x = false :=
  ledgerHas_filter_false _ h

theorem ledgerHas_recordTx (l : Ledger) (y x : String) (t : Int) :
    ledgerHas (recordTx l y t) x = true ↔ (x = y ∨ ledgerHas l x = true) := by
  simp only [recordTx, ledgerHas, List.any_cons, List.any_eq_true, Bool.or_eq_true,
    beq_iff_eq, List.mem_filter, bne_iff_ne]
  constructor
  · rintro (rfl | ⟨e, ⟨he, hne⟩, rfl⟩)
    · exact Or.inl rfl
    · exact Or.inr ⟨e, he, rfl⟩
  · rintro (rfl | ⟨e, he, rfl⟩)
    · exact Or.inl rfl
    · by_cases hxy : e.1 = y
      · exact Or.inl hxy.symm
      · exact Or.inr ⟨e, ⟨he, hxy⟩, rfl⟩

theorem ledgerHas_recordTx_self (l : Ledger) (y : String) (t : Int) :
    ledgerHas (recordTx l y t) y = true :=
  (ledgerHas_recordTx l y y t).mpr (Or.inl rfl)

theorem ledgerHas_recordTx_of {l : Ledger} {x : String} (y : String) (t : Int)
    (h : ledgerHas l x = true) : ledgerHas (recordTx l y t) x = true :=
  (ledgerHas_recordTx l y x t).mpr (Or.inr h)

theorem ledgerHas_recordTx_false {l : Ledger} {x y : String} {t : Int}
    (hxy : x ≠ y) (h : ledgerHas l x = false) :
    ledgerHas (recordTx l y t) x = false := by
  rw [← Bool.not_eq_true] at h ⊢
  intro hc
  rcases (ledgerHas_recordTx l y x t).mp hc with rfl | hc2
  · exact hxy rfl
  · exact h hc2

theorem ledgerHas_recordTx_false_elim {l : Ledger} {x y : String} {t : Int}
    (h : ledgerHas (recordTx l y t) x = false) :
    x ≠ y ∧ ledgerHas l x = false := by
  constructor
  · rintro rfl
    rw [ledgerHas_recordTx_self] at h
    exact Bool.noConfusion h
  · rw [← Bool.not_eq_true] at h ⊢
    intro hc
    exact h ((ledgerHas_recordTx l y x t).mpr (Or.inr hc))

theorem pair_mem_recordTx {l : Ledger} {x : String} {t' : Int} (y : String)
    (t : Int) (hxy : x ≠ y) (h : (x, t') ∈ l) : (x, t') ∈ recordTx l y t := by
  unfold recordTx
  exact List.mem_cons_of_mem _ (List.mem_filter.mpr ⟨h, by simpa using hxy⟩)

/-! ### Invariants of the per-transaction loop -/

theorem processTxs_mono (post : MercuryTransaction → Bool) (now : Int)
    (txs : List MercuryTransaction) :
    ∀ l x, ledgerHas l x = true →
      ledgerHas (processTxs post now l txs).ledger x = true := by
  induction txs with
  | nil => intro l x h; exact h
  | cons tx rest ih =>
    intro l x h
    cases hc : ledgerHas l tx.id with
    | true =>
      simp only [processTxs, hc, if_true]
      exact ih l x h
    | false =>
      cases hp : post tx with
      | true =>
        simp only [processTxs, hc, hp]
        simp only [Bool.false_eq_true, if_false, if_true]
        exact ih _ x (ledgerHas_recordTx_of _ _ h)
      | false =>
        simp only [processTxs, hc, hp]
        simp only [Bool.false_eq_true, if_false]
        exact h

theorem ledgerHas_false_of_processTxs (post : MercuryTransaction → Bool)
    (now : Int) (txs : List MercuryTransaction) (l : Ledger) (x : String)
    (h : ledgerHas (processTxs post now l txs).ledger x = false) :
    ledgerHas l x = false := by
  cases hl : ledgerHas l x with
  | false => rfl
  | true =>
    rw [processTxs_mono post now txs l x hl] at h
    exact Bool.noConfusion h

theorem processTxs_pair_mono (post : MercuryTransaction → Bool) (now : Int)
    (txs : List MercuryTransaction) :
    ∀ l x t, (x, t) ∈ l → (x, t) ∈ (processTxs post now l txs).ledger := by
  induction txs with
  | nil => intro l x t h; exact h
  | cons tx rest ih =>
    intro l x t h
    cases hc : ledgerHas l tx.id with
    | true =>
      simp only [processTxs, hc, if_true]
      exact ih l x t h
    | false =>
      cases hp : post tx with
      | true =>
        simp only [processTxs, hc, hp]
        simp only [Bool.false_eq_true, if_false, if_true]
        refine ih _ x t (pair_mem_recordTx tx.id now ?_ h)
        intro heq
        have hx := pair_mem_ledgerHas h
        rw [heq, hc] at hx
        exact Bool.noConfusion hx
      | false =>
        simp only [processTxs, hc, hp]
        simp only [Bool.false_eq_true, if_false]
        exact h

theorem processTxs_fresh_nodup (post : MercuryTransaction → Bool) (now : Int)
    (txs : List MercuryTransaction) :
    ∀ l, (∀ tx ∈ (processTxs post now l txs).posts, ledgerHas l tx.id = false) ∧
      (txIds (processTxs post now l txs).posts).Nodup := by
  induction txs with
  | nil =>
    intro l
    exact ⟨fun tx h => absurd h (by simp [processTxs]), by simp [processTxs, txIds]⟩
  | cons tx rest ih =>
    intro l
    cases hc : ledgerHas l tx.id with
    | true =>
      simpa only [processTxs, hc, if_true] using ih l
    | false =>
      cases hp : post tx with
      | false =>
        constructor
        · intro tx' h'
          simp only [processTxs, hc, hp, Bool.false_eq_true, if_false,
            List.mem_singleton] at h'
          rw [h']
          exact hc
        · simp [processTxs, hc, hp, txIds]
      | true =>
        have ihr := ih (recordTx l tx.id now)
        constructor
        · intro tx' h'
          simp only [processTxs, hc, hp, Bool.false_eq_true, if_false, if_true,
            List.mem_cons] at h'
          rcases h' with rfl | h'
          · exact hc
          · exact (ledgerHas_recordTx_false_elim (ihr.1 tx' h')).2
        · simp only [processTxs, hc, hp, Bool.false_eq_true, if_false, if_true,
            txIds, List.map_cons, List.nodup_cons]
          refine ⟨?_, by simpa [txIds] using ihr.2⟩
          intro hmem
          rw [List.mem_map] at hmem
          obtain ⟨tx', htx', hid⟩ := hmem
          have hfresh := ihr.1 tx' htx'
          rw [hid, ledgerHas_recordTx_self] at hfresh
          exact Bool.noConfusion hfresh

theorem processTxs_ok_recorded (post : MercuryTransaction → Bool) (now : Int)
    (txs : List MercuryTransaction) :
    ∀ l, (processTxs post now l txs).ok = true →
      ∀ tx ∈ (processTxs post now l txs).posts,
        ledgerHas (processTxs post now l txs).ledger tx.id = true := by
  induction txs with
  | nil => intro l _ tx h; exact absurd h (by simp [processTxs])
  | cons tx0 rest ih =>
    intro l hok tx htx
    cases hc : ledgerHas l tx0.id with
    | true =>
      simp only [processTxs, hc, if_true] at hok htx ⊢
      exact ih l hok tx htx
    | false =>
      cases hp : post tx0 with
      | true =>
        simp only [processTxs, hc, hp, Bool.false_eq_true, if_false, if_true,
          List.mem_cons] at hok htx ⊢
        rcases htx with rfl | htx
        · exact processTxs_mono post now rest _ _ (ledgerHas_recordTx_self l tx.id now)
        · exact ih _ hok tx htx
      | false =>
        simp only [processTxs, hc, hp, Bool.false_eq_true, if_false] at hok

theorem processTxs_posted_pair (post : MercuryTransaction → Bool) (now : Int)
    (txs : List MercuryTransaction) :
    ∀ l tx, post tx = true → tx ∈ (processTxs post now l txs).posts →
      (tx.id, now) ∈ (processTxs post now l txs).ledger := by
  induction txs with
  | nil => intro l tx _ h; exact absurd h (by simp [processTxs])
  | cons tx0 rest ih =>
    intro l tx hp htx
    cases hc : ledgerHas l tx0.id with
    | true =>
      simp only [processTxs, hc, if_true] at htx ⊢
      exact ih l tx hp htx
    | false =>
      cases hp0 : post tx0 with
      | true =>
        simp only [processTxs, hc, hp0, Bool.false_eq_true, if_false, if_true,
          List.mem_cons] at htx ⊢
        rcases htx with rfl | htx
        · exact processTxs_pair_mono post now rest _ _ _ (List.mem_cons_self _ _)
        · exact ih _ tx hp htx
      | false =>
        simp only [processTxs, hc, hp0, Bool.false_eq_true, if_false,
          List.mem_singleton] at htx
        rw [htx] at hp
        rw [hp] at hp0
        exact Bool.noConfusion hp0

theorem processTxs_all_skip (post : MercuryTransaction → Bool) (now : Int)
    (txs : List MercuryTransaction) :
    ∀ l, (∀ tx ∈ txs, ledgerHas l tx.id = true) →
      processTxs post now l txs = ⟨l, [], true⟩ := by
  induction txs with
  | nil => intro l _; rfl
  | cons tx rest ih =>
    intro l h
    have hc : ledgerHas l tx.id = true := h tx (List.mem_cons_self _ _)
    simp only [processTxs, hc, if_true]
    exact ih l (fun tx' h' => h tx' (List.mem_cons_of_mem _ h'))

/-! ### Invariants of the per-account loop -/

theorem syncAccounts_mono (fetch : MercuryAccount → Except Unit (List MercuryTransaction))
    (post : MercuryTransaction → Bool) (now : Int) (accounts : List MercuryAccount) :
    ∀ l x, ledgerHas l x = true →
      ledgerHas (syncAccounts fetch post now l accounts).ledger x = true := by
  induction accounts with
  | nil => intro l x h; exact h
  | cons a rest ih =>
    intro l x h
    cases hf : fetch a with
    | error e =>
      simp only [syncAccounts, hf]
      exact ih l x h
    | ok txs =>
      cases hr : (processTxs post now l txs).ok with
      | true =>
        simp only [syncAccounts, hf, hr, if_true]
        exact ih _ x (processTxs_mono post now txs l x h)
      | false =>
        simp only [syncAccounts, hf, hr, Bool.false_eq_true, if_false]
        exact processTxs_mono post now txs l x h

theorem ledgerHas_false_of_syncAccounts (fetch : MercuryAccount → Except Unit (List MercuryTransaction))
    (post : MercuryTransaction → Bool) (now : Int) (accounts : List MercuryAccount)
    (l : Ledger) (x : String)
    (h : ledgerHas (syncAccounts fetch post now l accounts).ledger x = false) :
    ledgerHas l x = false := by
  cases hl : ledgerHas l x with
  | false => rfl
  | true =>
    rw [syncAccounts_mono fetch post now accounts l x hl] at h
    exact Bool.noConfusion h

theorem syncAccounts_pair_mono (fetch : MercuryAccount → Except Unit (List MercuryTransaction))
    (post : MercuryTransaction → Bool) (now : Int) (accounts : List MercuryAccount) :
    ∀ l x t, (x, t) ∈ l → (x, t) ∈ (syncAccounts fetch post now l accounts).ledger := by
  induction accounts with
  | nil => intro l x t h; exact h
  | cons a rest ih =>
    intro l x t h
    cases hf : fetch a with
    | error e =>
      simp only [syncAccounts, hf]
      exact ih l x t h
    | ok txs =>
      cases hr : (processTxs post now l txs).ok with
      | true =>
        simp only [syncAccounts, hf, hr, if_true]
        exact ih _ x t (processTxs_pair_mono post now txs l x t h)
      | false =>
        simp only [syncAccounts, hf, hr, Bool.false_eq_true, if_false]
        exact processTxs_pair_mono post now txs l x t h

theorem syncAccounts_fresh_nodup (fetch : MercuryAccount → Except Unit (List MercuryTransaction))
    (post : MercuryTransaction → Bool) (now : Int) (accounts : List MercuryAccount) :
    ∀ l, (∀ tx ∈ (syncAccounts fetch post now l accounts).posts, ledgerHas l tx.id = false) ∧
      (txIds (syncAccounts fetch post now l accounts).posts).Nodup := by
  induction accounts with
  | nil =>
    intro l
    exact ⟨fun tx h => absurd h (by simp [syncAccounts]), by simp [syncAccounts, txIds]⟩
  | cons a rest ih =>
    intro l
    cases hf : fetch a with
    | error e =>
      simpa only [syncAccounts, hf] using ih l
    | ok txs =>
      cases hr : (processTxs post now l txs).ok with
      | false =>
        simpa only [syncAccounts, hf, hr, Bool.false_eq_true, if_false] using
          processTxs_fresh_nodup post now txs l
      | true =>
        have h1 := processTxs_fresh_nodup post now txs l
        have h2 := ih (processTxs post now l txs).ledger
        have hrec := processTxs_ok_recorded post now txs l hr
        constructor
        · intro tx htx
          simp only [syncAccounts, hf, hr, if_true, List.mem_append] at htx
          rcases htx with htx | htx
          · exact h1.1 tx htx
          · exact ledgerHas_false_of_processTxs post now txs l tx.id (h2.1 tx htx)
        · simp only [syncAccounts, hf, hr, if_true, txIds, List.map_append]
          rw [List.nodup_append]
          refine ⟨by simpa [txIds] using h1.2, by simpa [txIds] using h2.2, ?_⟩
          intro x hx hx2
          rw [List.mem_map] at hx hx2
          obtain ⟨tx1, htx1, hid1⟩ := hx
          obtain ⟨tx2, htx2, hid2⟩ := hx2
          have ha : ledgerHas (processTxs post now l txs).ledger x = true := by
            rw [← hid1]; exact hrec tx1 htx1
          have hb : ledgerHas (processTxs post now l txs).ledger x = false := by
            rw [← hid2]; exact h2.1 tx2 htx2
          rw [ha] at hb
          exact Bool.noConfusion hb

theorem syncAccounts_ok_recorded (fetch : MercuryAccount → Except Unit (List MercuryTransaction))
    (post : MercuryTransaction → Bool) (now : Int) (accounts : List MercuryAccount) :
    ∀ l, (syncAccounts fetch post now l accounts).ok = true →
      ∀ tx ∈ (syncAccounts fetch post now l accounts).posts,
        ledgerHas (syncAccounts fetch post now l accounts).ledger tx.id = true := by
  induction accounts with
  | nil => intro l _ tx h; exact absurd h (by simp [syncAccounts])
  | cons a rest ih =>
    intro l hok tx htx
    cases hf : fetch a with
    | error e =>
      simp only [syncAccounts, hf] at hok htx ⊢
      exact ih l hok tx htx
    | ok txs =>
      cases hr : (processTxs post now l txs).ok with
      | false =>
        simp only [syncAccounts, hf, hr, Bool.false_eq_true, if_false] at hok
      | true =>
        simp only [syncAccounts, hf, hr, if_true, List.mem_append] at hok htx ⊢
        rcases htx with htx | htx
        · exact syncAccounts_mono fetch post now rest _ _
            (processTxs_ok_recorded post now txs l hr tx htx)
        · exact ih _ hok tx htx

theorem syncAccounts_posted_pair (fetch : MercuryAccount → Except Unit (List MercuryTransaction))
    (post : MercuryTransaction → Bool) (now : Int) (accounts : List MercuryAccount) :
    ∀ l tx, post tx = true → tx ∈ (syncAccounts fetch post now l accounts).posts →
      (tx.id, now) ∈ (syncAccounts fetch post now l accounts).ledger := by
  induction accounts with
  | nil => intro l tx _ h; exact absurd h (by simp [syncAccounts])
  | cons a rest ih =>
    intro l tx hp htx
    cases hf : fetch a with
    | error e =>
      simp only [syncAccounts, hf] at htx ⊢
      exact ih l tx hp htx
    | ok txs =>
      cases hr : (processTxs post now l txs).ok with
      | false =>
        simp only [syncAccounts, hf, hr, Bool.false_eq_true, if_false] at htx ⊢
        exact processTxs_posted_pair post now txs l tx hp htx
      | true =>
        simp only [syncAccounts, hf, hr, if_true, List.mem_append] at htx ⊢
        rcases htx with htx | htx
        · exact syncAccounts_pair_mono fetch post now rest _ _ _
            (processTxs_posted_pair post now txs l tx hp htx)
        · exact ih _ tx hp htx

theorem syncAccounts_all_skip (fetch : MercuryAccount → Except Unit (List MercuryTransaction))
    (post : MercuryTransaction → Bool) (now : Int) (accounts : List MercuryAccount) :
    ∀ l, (∀ a ∈ accounts, ∀ txs, fetch a = Except.ok txs →
        ∀ tx ∈ txs, ledgerHas l tx.id = true) →
      syncAccounts fetch post now l accounts = ⟨l, [], true⟩ := by
  induction accounts with
  | nil => intro l _; rfl
  | cons a rest ih =>
    intro l h
    cases hf : fetch a with
    | error e =>
      simp only [syncAccounts, hf]
      exact ih l (fun a' ha' => h a' (List.mem_cons_of_mem _ ha'))
    | ok txs =>
      have hskip := processTxs_all_skip post now txs l
        (h a (List.mem_cons_self _ _) txs hf)
      simp only [syncAccounts, hf, hskip, if_true]
      rw [ih l (fun a' ha' => h a' (List.mem_cons_of_mem _ ha'))]
      rfl

/-! ### Concrete fixtures for witnesses and counterexamples -/

def acctA : MercuryAccount := ⟨"acctA", "Checking"⟩

def acctB : MercuryAccount := ⟨"acctB", "Savings"⟩

def txT1 : MercuryTransaction := ⟨"t1", 5, "wire in", 0⟩

def txT2 : MercuryTransaction := ⟨"t2", -3, "card", 0⟩

def txCredit : MercuryTransaction := ⟨"tc", 251 / 2, "deposit", 90000⟩

def txDebit : MercuryTransaction := ⟨"td", -40, "payment", 90000⟩

def txZero : MercuryTransaction := ⟨"tz", 0, "zero", 90000⟩

/-- Fetch oracle returning the same transaction list for every account. -/
def constFetch (txs : List MercuryTransaction) :
    MercuryAccount → Except Unit (List MercuryTransaction) :=
  fun _ => Except.ok txs

/-- Post oracle whose requests all succeed. -/
def alwaysPost : MercuryTransaction → Bool := fun _ => true

/-- Fetch oracle that fails for account `acctA` and returns `[txT1]`
for every other account. -/
def fetchAFails : MercuryAccount → Except Unit (List MercuryTransaction) :=
  fun a => if a.id == "acctA" then Except.error () else Except.ok [txT1]

/-- Fetch oracle returning `[txT1, txT2]` for every account. -/
def fetchT1T2 : MercuryAccount → Except Unit (List MercuryTransaction) :=
  fun _ => Except.ok [txT1, txT2]

/-- Post oracle for which only the request for ID `"t1"` succeeds. -/
def postOnlyT1 : MercuryTransaction → Bool := fun t => t.id == "t1"

/-- Cycle environment in which fetching and posting succeed but
persisting the ledger fails. -/
def envPersistFails : CycleEnv := ⟨[acctA], constFetch [txT1], alwaysPost, 0, false⟩

/-! ### Claim C4 — pruning is an exact filter on `firstSeenAt` -/

/-- Claim C4: `pruneLedger` removes exactly the entries whose
`firstSeenAt` is strictly older than `now` minus the retention window:
an entry (with its timestamp) survives the prune iff it was in the
ledger and its timestamp is not strictly below `now - retention`.  No
entry is modified or added, so pruning is a pure filter. -/
theorem claim_C4_pruneExact (l : Ledger) (now : Int) (x : String) (t : Int) :
    (x, t) ∈ pruneLedger l now ↔
      ((x, t) ∈ l ∧ ¬ (t < now - retentionSeconds)) := by
  simp [pruneLedger, List.mem_filter]

/-! ### Claim C5 — sign mapping of posted transactions -/

/-- Claim C5: a strictly positive amount is posted as a `"CREDIT"`
record and a non-positive amount (zero included) as a `"DEBIT"` record;
the amount sent is the absolute value (hence non-negative, the sign
lives only in `baseType`); the date sent is the posted timestamp
normalized to a date-only value; the destination bank-integration ID is
attached. -/
theorem claim_C5_signMapping (bankIntegrationID : String) (tx : MercuryTransaction) :
    (0 < tx.amount →
      (createInvoiceNinjaTransaction bankIntegrationID tx).baseType = "CREDIT") ∧
    (tx.amount ≤ 0 →
      (createInvoiceNinjaTransaction bankIntegrationID tx).baseType = "DEBIT") ∧
    (createInvoiceNinjaTransaction bankIntegrationID tx).amount = |tx.amount| ∧
    0 ≤ (createInvoiceNinjaTransaction bankIntegrationID tx).amount ∧
    (createInvoiceNinjaTransaction bankIntegrationID tx).date =
      formatDateOnly tx.postedAt ∧
    (createInvoiceNinjaTransaction bankIntegrationID tx).bankIntegrationID =
      bankIntegrationID := by
  refine ⟨?_, ?_, rfl, abs_nonneg _, rfl, rfl⟩
  · intro h
    simp [createInvoiceNinjaTransaction, h]
  · intro h
    have hneg : ¬ (0 < tx.amount) := not_lt.mpr h
    simp [createInvoiceNinjaTransaction, hneg]

/-- Witness for C5 at the spec's sample amounts: `+125.50` maps to a
credit of magnitude `125.50`, `-40.00` to a debit of magnitude `40.00`,
and `0` to a debit; the date of a timestamp 25 hours into the epoch is
day 1. -/
theorem claim_C5_witness :
    (createInvoiceNinjaTransaction "route1" txCredit).baseType = "CREDIT" ∧
    (createInvoiceNinjaTransaction "route1" txCredit).amount = 251 / 2 ∧
    (createInvoiceNinjaTransaction "route1" txDebit).baseType = "DEBIT" ∧
    (createInvoiceNinjaTransaction "route1" txDebit).amount = 40 ∧
    (createInvoiceNinjaTransaction "route1" txZero).baseType = "DEBIT" ∧
    (createInvoiceNinjaTransaction "route1" txZero).date = 1 := by
  have h1 := claim_C5_signMapping "route1" txCredit
  have h2 := claim_C5_signMapping "route1" txDebit
  have h3 := claim_C5_signMapping "route1" txZero
  refine ⟨h1.1 (by norm_num [txCredit]), ?_, h2.2.1 (by norm_num [txDebit]), ?_,
    h3.2.1 (by norm_num [txZero]), ?_⟩
  · rw [h1.2.2.1]
    norm_num [txCredit]
  · rw [h2.2.2.1]
    norm_num [txDebit]
  · rw [h3.2.2.2.2.1]
    decide

/-! ### Claim C9 — retention window versus lookback window -/

/-- Claim C9 counterexample: at the default configuration the retention
window (7 days, hard-coded in the pruning step) does NOT exceed the
lookback window (`SyncStartDaysAgo`, default 7): they are equal, so the
claim "retention exceeds lookback for every configuration" is false. -/
theorem claim_C9_counterexample :
    ¬ (lookbackDays loadConfigDefaults < retentionDays) := by
  decide

/-- Claim C9 amended: the retention window is fixed at 7 days, exactly
equal to the default lookback; it strictly exceeds the configured
lookback iff `SyncStartDaysAgo < 7`, and is at least the lookback iff
`SyncStartDaysAgo ≤ 7` (the lookback is an arbitrary configurable
integer, so configurations with a larger lookback make retention
smaller than lookback). -/
theorem claim_C9_amended :
    retentionDays = lookbackDays loadConfigDefaults ∧
    (∀ c : Config, lookbackDays c < retentionDays ↔ c.syncStartDaysAgo < 7) ∧
    (∀ c : Config, lookbackDays c ≤ retentionDays ↔ c.syncStartDaysAgo ≤ 7) := by
  refine ⟨rfl, fun c => ?_, fun c => ?_⟩ <;> simp [lookbackDays, retentionDays]

/-! ### Claim C3 — idempotence of a cycle -/

/-- Claim C3 counterexample: a ledger can contain every fetched
transaction's ID and the cycle can still post: if the entry's timestamp
is older than the retention window, the initial prune removes it and
the transaction is re-posted.  Here the ledger contains `"t1"` (at time
0), the only fetched transaction is `txT1` with ID `"t1"`, and at
`now = retentionSeconds + 1` the cycle issues one post request for it
rather than zero. -/
theorem claim_C3_counterexample :
    ledgerHas [("t1", 0)] "t1" = true ∧
    txIds (syncTransactions [acctA] (constFetch [txT1]) alwaysPost
      (retentionSeconds + 1) [("t1", 0)]).posts = ["t1"] := by
  exact ⟨rfl, rfl⟩

/-- Claim C3 amended: for every set of fetched source transactions all
of whose IDs are contained in the Ledger with `firstSeenAt` inside the
retention window (i.e. still present after the cycle's initial prune),
the cycle issues zero post requests and each such transaction is
skipped as a no-op: the resulting ledger is exactly the pruned input
ledger. -/
theorem claim_C3_idempotence (accounts : List MercuryAccount)
    (fetch : MercuryAccount → Except Unit (List MercuryTransaction))
    (post : MercuryTransaction → Bool) (now : Int) (l : Ledger)
    (h : ∀ a ∈ accounts, ∀ txs, fetch a = Except.ok txs →
      ∀ tx ∈ txs, ledgerHas (pruneLedger l now) tx.id = true) :
    (syncTransactions accounts fetch post now l).posts = [] ∧
    (syncTransactions accounts fetch post now l).ledger = pruneLedger l now := by
  unfold syncTransactions
  rw [syncAccounts_all_skip fetch post now accounts (pruneLedger l now) h]
  exact ⟨rfl, rfl⟩

/-- Witness for the amended C3: a ledger containing `"t1"` at time 0,
pruned at `now = 0`, skips the fetched `txT1` and posts nothing. -/
theorem claim_C3_witness :
    (syncTransactions [acctA] (constFetch [txT1]) alwaysPost 0 [("t1", 0)]).posts = [] ∧
    (syncTransactions [acctA] (constFetch [txT1]) alwaysPost 0 [("t1", 0)]).ledger =
      pruneLedger [("t1", 0)] 0 := by
  refine claim_C3_idempotence [acctA] (constFetch [txT1]) alwaysPost 0 [("t1", 0)] ?_
  intro a ha txs hf tx htx
  simp only [constFetch, Except.ok.injEq] at hf
  subst hf
  simp only [List.mem_singleton] at htx
  subst htx
  decide

/-! ### Claim C10 — at most one post per transaction ID per cycle -/

/-- Claim C10 (implicit): within a single reconciliation cycle at most
one post request is issued for any given transaction ID, even when the
same ID occurs several times across the fetched lists: each successful
post records the ID before any later occurrence is examined, and a
failed post aborts the cycle. -/
theorem claim_C10_atMostOnePostPerId (accounts : List MercuryAccount)
    (fetch : MercuryAccount → Except Unit (List MercuryTransaction))
    (post : MercuryTransaction → Bool) (now : Int) (l : Ledger) (x : String) :
    (txIds (syncTransactions accounts fetch post now l).posts).count x ≤ 1 := by
  have h := (syncAccounts_fresh_nodup fetch post now accounts (pruneLedger l now)).2
  exact List.nodup_iff_count_le_one.mp h x

/-! ### Claim C2 — at-least-once delivery -/

/-- Claim C2: for a transaction not in the ledger at the start of the
cycle, if a post request was issued for it during the cycle and the
post call succeeds, then after the cycle the (in-memory) ledger
contains its ID and exactly one post request was issued for that ID
during the whole cycle. -/
theorem claim_C2_atLeastOnce (accounts : List MercuryAccount)
    (fetch : MercuryAccount → Except Unit (List MercuryTransaction))
    (post : MercuryTransaction → Bool) (now : Int) (l : Ledger)
    (tx : MercuryTransaction)
    (hstart : ledgerHas l tx.id = false)
    (hpost : post tx = true)
    (hissued : tx ∈ (syncTransactions accounts fetch post now l).posts) :
    ledgerHas (syncTransactions accounts fetch post now l).ledger tx.id = true ∧
    (txIds (syncTransactions accounts fetch post now l).posts).count tx.id = 1 := by
  unfold syncTransactions at hissued ⊢
  constructor
  · exact pair_mem_ledgerHas
      (syncAccounts_posted_pair fetch post now accounts (pruneLedger l now) tx hpost hissued)
  · have hnd := (syncAccounts_fresh_nodup fetch post now accounts (pruneLedger l now)).2
    have hle := List.nodup_iff_count_le_one.mp hnd tx.id
    have hmem : tx.id ∈
        txIds (syncAccounts fetch post now (pruneLedger l now) accounts).posts := by
      rw [txIds, List.mem_map]
      exact ⟨tx, hissued, rfl⟩
    have hge := List.count_pos_iff.mpr hmem
    omega

/-- Witness for C2: an empty ledger, one account fetching `[txT1]`, all
posts succeeding: after the cycle the ledger contains `"t1"` and
exactly one request for `"t1"` was issued. -/
theorem claim_C2_witness :
    ledgerHas (syncTransactions [acctA] (constFetch [txT1]) alwaysPost 0 []).ledger
      txT1.id = true ∧
    (txIds (syncTransactions [acctA] (constFetch [txT1]) alwaysPost 0 []).posts).count
      txT1.id = 1 :=
  claim_C2_atLeastOnce [acctA] (constFetch [txT1]) alwaysPost 0 [] txT1 rfl rfl (by decide)

/-! ### Claim C8 — per-account isolation of fetch failures -/

/-- Claim C8: if fetching one account's transactions fails, that
account is skipped for this cycle without aborting it, and the cycle's
entire outcome (ledger, post requests, status) is exactly as if that
account were absent from the account list — so every other account,
before or after the failing one, is still processed identically. -/
theorem claim_C8_accountIsolation
    (fetch : MercuryAccount → Except Unit (List MercuryTransaction))
    (post : MercuryTransaction → Bool) (now : Int)
    (a : MercuryAccount) (rest : List MercuryAccount)
    (hfail : fetch a = Except.error ()) :
    ∀ (pre : List MercuryAccount) (l : Ledger),
      syncAccounts fetch post now l (pre ++ a :: rest) =
        syncAccounts fetch post now l (pre ++ rest) := by
  intro pre
  induction pre with
  | nil =>
    intro l
    simp only [List.nil_append, syncAccounts, hfail]
  | cons b pre ih =>
    intro l
    cases hfb : fetch b with
    | error e =>
      simp only [List.cons_append, syncAccounts, hfb]
      exact ih l
    | ok txs =>
      cases hr : (processTxs post now l txs).ok with
      | true =>
        simp only [List.cons_append, syncAccounts, hfb, hr, if_true, List.append_eq]
        rw [ih _]
      | false =>
        simp only [List.cons_append, syncAccounts, hfb, hr, Bool.false_eq_true, if_false]

/-- Witness for C8: with a fetch oracle failing on `acctA`, a cycle
over `[acctA, acctB]` is identical to a cycle over `[acctB]`. -/
theorem claim_C8_witness :
    syncAccounts fetchAFails alwaysPost 0 [] ([] ++ acctA :: [acctB]) =
      syncAccounts fetchAFails alwaysPost 0 [] ([] ++ [acctB]) :=
  claim_C8_accountIsolation fetchAFails alwaysPost 0 acctA [acctB] rfl [] []

/-! ### Claim C6 — scheduler cadence -/

/-- Claim C6 counterexample: the code schedules the next cycle from the
clock read AFTER the cycle's work (`nextSync := time.Now().Add(interval)`
at the bottom of the loop), not from the cycle's start.  With a 1-hour
interval and a cycle that took 60 seconds, successive start times are
3660 seconds apart, not the configured 3600. -/
theorem claim_C6_counterexample :
    cycleStart 0 1 (fun _ => 60) 1 - cycleStart 0 1 (fun _ => 60) 0 ≠
      loadConfigDefaults.syncIntervalHours * secondsPerHour := by
  decide

/-- Claim C6 amended: after every cycle (successful or failed) the next
cycle is scheduled at `cycleEnd + interval`, so successive cycle start
times are spaced by the cycle's duration plus the configured interval
(not by the interval alone); and the loop unconditionally proceeds to
the next cycle regardless of the previous cycle's outcome. -/
theorem claim_C6_cadence (t0 i : Int) (dur : Nat → Int) (n : Nat)
    (hi : 0 ≤ i) :
    cycleStart t0 i dur (n + 1) - cycleStart t0 i dur n =
      dur n + i * secondsPerHour ∧
    (∀ (e : CycleEnv) (rest : List CycleEnv) (s : MainState),
      runCycles (e :: rest) s = runCycles rest (mainStep e s)) := by
  constructor
  · have hnn : (0 : Int) ≤ i * secondsPerHour :=
      mul_nonneg hi (by norm_num [secondsPerHour])
    have hmax : nextCycleStart (cycleStart t0 i dur n + dur n) i =
        cycleStart t0 i dur n + dur n + i * secondsPerHour := by
      unfold nextCycleStart nextSyncTime
      exact max_eq_right (le_add_of_nonneg_right hnn)
    simp only [cycleStart]
    rw [hmax]
    ring
  · intro e rest s
    rfl

/-- Witness for the amended C6: first cycle starts at 0, takes 60
seconds, interval one hour: the second cycle starts 3660 seconds after
the first. -/
theorem claim_C6_witness :
    cycleStart 0 1 (fun _ => 60) 1 - cycleStart 0 1 (fun _ => 60) 0 =
      60 + 1 * secondsPerHour :=
  (claim_C6_cadence 0 1 (fun _ => 60) 0 (by decide)).1

/-! ### Claim C1 — cycle-abort semantics -/

/-- Claim C1 counterexample: one account fetching `[txT1, txT2]`, where
the post of `txT1` succeeds and the post of `txT2` fails.  After the
cycle the on-disk ledger is still empty (nothing persisted), but the
in-memory mutation recording `"t1"` is NOT discarded — the Go `state`
map survives the aborted cycle — and therefore the next cycle issues a
post request only for `"t2"`, not for both transactions as the claim
states. -/
theorem claim_C1_counterexample :
    ledgerHas (mainStep ⟨[acctA], fetchT1T2, postOnlyT1, 0, true⟩ ⟨[], []⟩).mem
      "t1" = true ∧
    (mainStep ⟨[acctA], fetchT1T2, postOnlyT1, 0, true⟩ ⟨[], []⟩).disk = [] ∧
    txIds (syncTransactions [acctA] fetchT1T2 alwaysPost 0
      (mainStep ⟨[acctA], fetchT1T2, postOnlyT1, 0, true⟩ ⟨[], []⟩).mem).posts =
      ["t2"] := by
  exact ⟨rfl, rfl, rfl⟩

/-- Claim C1 amended: for a cycle over two transactions not yet in the
ledger where the first post succeeds and the second fails, after the
cycle the persisted (on-disk) ledger contains neither transaction's ID,
but the in-memory ledger mutations are retained (the first ID is in
memory), so the next cycle re-attempts only the second transaction: its
post trace is exactly `[t2.id]`. -/
theorem claim_C1_cycleAbort (acct : MercuryAccount) (t1 t2 : MercuryTransaction)
    (fetch : MercuryAccount → Except Unit (List MercuryTransaction))
    (post post2 : MercuryTransaction → Bool) (now now2 : Int) (pOk : Bool)
    (s : MainState)
    (hid : t1.id ≠ t2.id)
    (hm1 : ledgerHas s.mem t1.id = false) (hm2 : ledgerHas s.mem t2.id = false)
    (hd1 : ledgerHas s.disk t1.id = false) (hd2 : ledgerHas s.disk t2.id = false)
    (hf : fetch acct = Except.ok [t1, t2])
    (hp1 : post t1 = true) (hp2 : post t2 = false)
    (hnow : now2 ≤ now + retentionSeconds) :
    ledgerHas (mainStep ⟨[acct], fetch, post, now, pOk⟩ s).disk t1.id = false ∧
    ledgerHas (mainStep ⟨[acct], fetch, post, now, pOk⟩ s).disk t2.id = false ∧
    ledgerHas (mainStep ⟨[acct], fetch, post, now, pOk⟩ s).mem t1.id = true ∧
    txIds (syncTransactions [acct] fetch post2 now2
      (mainStep ⟨[acct], fetch, post, now, pOk⟩ s).mem).posts = [t2.id] := by
  have hL1 : ledgerHas (pruneLedger s.mem now) t1.id = false :=
    ledgerHas_pruneLedger_false now hm1
  have hL2 : ledgerHas (pruneLedger s.mem now) t2.id = false :=
    ledgerHas_pruneLedger_false now hm2
  have hR2 : ledgerHas (recordTx (pruneLedger s.mem now) t1.id now) t2.id = false :=
    ledgerHas_recordTx_false hid.symm hL2
  have hsync : syncTransactions [acct] fetch post now s.mem =
      ⟨recordTx (pruneLedger s.mem now) t1.id now, [t1, t2], false⟩ := by
    simp [syncTransactions, syncAccounts, processTxs, hf, hL1, hR2, hp1, hp2]
  have hstep : mainStep ⟨[acct], fetch, post, now, pOk⟩ s =
      ⟨recordTx (pruneLedger s.mem now) t1.id now, s.disk⟩ := by
    simp [mainStep, hsync]
  rw [hstep]
  refine ⟨hd1, hd2, ledgerHas_recordTx_self _ _ _, ?_⟩
  have ha : ledgerHas
      (pruneLedger (recordTx (pruneLedger s.mem now) t1.id now) now2) t1.id = true := by
    refine pair_mem_ledgerHas (t := now) ?_
    unfold pruneLedger
    rw [List.mem_filter]
    refine ⟨List.mem_cons_self _ _, ?_⟩
    simp only [Bool.not_eq_eq_eq_not, Bool.not_true, decide_eq_false_iff_not, not_lt]
    omega
  have hb : ledgerHas
      (pruneLedger (recordTx (pruneLedger s.mem now) t1.id now) now2) t2.id = false :=
    ledgerHas_pruneLedger_false now2 hR2
  cases hp2' : post2 t2 with
  | true => simp [syncTransactions, syncAccounts, processTxs, hf, ha, hb, hp2', txIds]
  | false => simp [syncTransactions, syncAccounts, processTxs, hf, ha, hb, hp2', txIds]

/-- Witness for the amended C1 at the concrete counterexample inputs. -/
theorem claim_C1_witness :
    ledgerHas (mainStep ⟨[acctA], fetchT1T2, postOnlyT1, 0, true⟩ ⟨[], []⟩).disk
      txT1.id = false ∧
    ledgerHas (mainStep ⟨[acctA], fetchT1T2, postOnlyT1, 0, true⟩ ⟨[], []⟩).disk
      txT2.id = false ∧
    ledgerHas (mainStep ⟨[acctA], fetchT1T2, postOnlyT1, 0, true⟩ ⟨[], []⟩).mem
      txT1.id = true ∧
    txIds (syncTransactions [acctA] fetchT1T2 alwaysPost 0
      (mainStep ⟨[acctA], fetchT1T2, postOnlyT1, 0, true⟩ ⟨[], []⟩).mem).posts =
      [txT2.id] :=
  claim_C1_cycleAbort acctA txT1 txT2 fetchT1T2 postOnlyT1 alwaysPost 0 0 true
    ⟨[], []⟩ (by decide) rfl rfl rfl rfl rfl rfl rfl (by decide)

/-! ### Claim C7 — persist-failure semantics -/

/-- Claim C7 counterexample: a cycle that posts `txT1` successfully and
then fails to persist.  The mutation recording `"t1"` is NOT lost in
memory (the Go `state` map survives), so the next cycle posts nothing —
it does not re-attempt the unpersisted work, contrary to the claim. -/
theorem claim_C7_counterexample :
    ledgerHas (mainStep envPersistFails ⟨[], []⟩).mem "t1" = true ∧
    (mainStep envPersistFails ⟨[], []⟩).disk = [] ∧
    txIds (syncTransactions [acctA] (constFetch [txT1]) alwaysPost 0
      (mainStep envPersistFails ⟨[], []⟩).mem).posts = [] := by
  exact ⟨rfl, rfl, rfl⟩

/-- Claim C7 amended: if persisting the ledger fails at the end of a
successful cycle, the on-disk snapshot is unchanged but the in-memory
ledger mutations are retained, so the next cycle (within the retention
window) does NOT re-attempt a transaction posted in the failed-persist
cycle; the unpersisted work is re-attempted only after a process
restart, which reloads the stale on-disk snapshot into memory. -/
theorem claim_C7_persistFailure (e e2 : CycleEnv) (s : MainState)
    (tx : MercuryTransaction)
    (hok : (syncTransactions e.accounts e.fetch e.post e.now s.mem).ok = true)
    (hpersist : e.persistOk = false)
    (hissued : tx ∈ (syncTransactions e.accounts e.fetch e.post e.now s.mem).posts)
    (hpost : e.post tx = true)
    (hnow : e2.now ≤ e.now + retentionSeconds)
    (hdisk : ledgerHas s.disk tx.id = false) :
    (mainStep e s).mem = (syncTransactions e.accounts e.fetch e.post e.now s.mem).ledger ∧
    (mainStep e s).disk = s.disk ∧
    (∀ tx2 ∈ (syncTransactions e2.accounts e2.fetch e2.post e2.now
      (mainStep e s).mem).posts, tx2.id ≠ tx.id) ∧
    ledgerHas (restartProcess (mainStep e s)).mem tx.id = false := by
  have hstep : mainStep e s =
      ⟨(syncTransactions e.accounts e.fetch e.post e.now s.mem).ledger, s.disk⟩ := by
    simp [mainStep, hpersist]
  refine ⟨by rw [hstep], by rw [hstep], ?_, by rw [hstep]; exact hdisk⟩
  intro tx2 htx2 heq
  have hpair : (tx.id, e.now) ∈
      (syncTransactions e.accounts e.fetch e.post e.now s.mem).ledger :=
    syncAccounts_posted_pair e.fetch e.post e.now e.accounts _ tx hpost hissued
  have hkeep : (tx.id, e.now) ∈ pruneLedger (mainStep e s).mem e2.now := by
    rw [hstep]
    unfold pruneLedger
    rw [List.mem_filter]
    refine ⟨hpair, ?_⟩
    simp only [Bool.not_eq_eq_eq_not, Bool.not_true, decide_eq_false_iff_not, not_lt]
    omega
  have hhas : ledgerHas (pruneLedger (mainStep e s).mem e2.now) tx.id = true :=
    pair_mem_ledgerHas hkeep
  have hfresh := (syncAccounts_fresh_nodup e2.fetch e2.post e2.now e2.accounts
    (pruneLedger (mainStep e s).mem e2.now)).1 tx2 htx2
  rw [heq, hhas] at hfresh
  exact Bool.noConfusion hfresh

/-- Witness for the amended C7 at the concrete counterexample inputs. -/
theorem claim_C7_witness :
    (mainStep envPersistFails ⟨[], []⟩).mem =
      (syncTransactions [acctA] (constFetch [txT1]) alwaysPost 0 []).ledger ∧
    (mainStep envPersistFails ⟨[], []⟩).disk = [] ∧
    ledgerHas (restartProcess (mainStep envPersistFails ⟨[], []⟩)).mem txT1.id = false := by
  have h := claim_C7_persistFailure envPersistFails envPersistFails ⟨[], []⟩ txT1
    rfl rfl (by decide) rfl (by decide) rfl
  exact ⟨h.1, h.2.1, h.2.2.2⟩
